import Mathlib

/-!
Verification of the fuzzy-logic repository (combat AI and autonomous AGV demos).

The development shallowly embeds the program:
* `trapmf` is the scalar semantics of the trapezoidal membership evaluation in
  the combat AI file (the numpy mask assignments, read pointwise).
* The AGV demo configures a Mamdani inference system (membership shapes and
  twelve rules) and calls an external fuzzy library to run it.  The library is
  not part of the repository sources, so the inference engine itself
  (fuzzification, min/max rule evaluation, clipping, max aggregation and
  centroid defuzzification over the discretized output universe, with the
  undefined case when the aggregated profile sums to zero) is modelled from the
  spec, sections 4.1, 4.3 and 4.4; the membership shapes, the rule list and
  everything around the engine are taken from the source file.
* Ray-cast sensing, the steering smoothing and emergency override, heading
  integration and wrap, collision handling and the breadcrumb trail follow the
  AGV source line by line.  The marching loop is written with an explicit fuel
  argument equal to the number of iterations the while loop can execute.

Arithmetic is exact (an ordered field; the rationals for computation, the reals
for the kinematics, whose direction vectors involve cosines).  Floating point
rounding and NaN are outside the model.
-/

set_option maxRecDepth 20000

/-- Scalar semantics of `trapmf(x, a, b, c, d)` from the combat AI file: a
numpy vector of zeros, then three sequential masked assignments (rising edge
when `b > a`, plateau on `[b, c]`, falling edge when `d > c`), read at one
sample point. -/
def trapmf {K : Type*} [LinearOrderedField K] (x a b c d : K) : K :=
  let y0 : K := 0
  let y1 : K := if a < b ∧ a < x ∧ x < b then (x - a) / (b - a) else y0
  let y2 : K := if b ≤ x ∧ x ≤ c then 1 else y1
  if c < d ∧ c < x ∧ x < d then (d - x) / (d - c) else y2

/-- Modelled from the spec: section 4.1 membership evaluation (the fuzzy
library that evaluates the shapes in the AGV demo is not part of src/).
Degree 0 outside `[a, d]`, rising linearly on `(a, b)`, plateau 1 on `[b, c]`,
falling linearly on `(c, d)`; with `a = b` or `c = d` the edge collapses to a
step. -/
def trapmfS {K : Type*} [LinearOrderedField K] (a b c d x : K) : K :=
  if b ≤ x ∧ x ≤ c then 1
  else if a < x ∧ x < b then (x - a) / (b - a)
  else if c < x ∧ x < d then (d - x) / (d - c)
  else 0

/-- Triangular membership as the degenerate trapezoid with `b = c`
(spec section 4.1). -/
def trimfS {K : Type*} [LinearOrderedField K] (a b c x : K) : K :=
  trapmfS a b b c x

/-- Pointwise minimum, written out (numpy fmin on scalars). -/
def fmin {K : Type*} [LinearOrderedField K] (a b : K) : K :=
  if a ≤ b then a else b

/-- Pointwise maximum, written out (numpy fmax on scalars). -/
def fmax {K : Type*} [LinearOrderedField K] (a b : K) : K :=
  if a ≤ b then b else a

/-- Input membership `Near`, shape `[0, 0, 45, 85]` from the AGV source. -/
def memNear {K : Type*} [LinearOrderedField K] (x : K) : K :=
  trapmfS 0 0 45 85 x

/-- Input membership `Medium`, shape `[45, 85, 95, 115]` from the AGV source. -/
def memMedium {K : Type*} [LinearOrderedField K] (x : K) : K :=
  trapmfS 45 85 95 115 x

/-- Input membership `Far`, shape `[85, 115, 120, 120]` from the AGV source. -/
def memFar {K : Type*} [LinearOrderedField K] (x : K) : K :=
  trapmfS 85 115 120 120 x

/-- Output membership `VeryNegative`, shape `[-50, -50, -40, -35]`. -/
def mfVeryNegative {K : Type*} [LinearOrderedField K] (x : K) : K :=
  trapmfS (-50) (-50) (-40) (-35) x

/-- Output membership `Negative`, shape `[-40, -35, -25, -20]`. -/
def mfNegative {K : Type*} [LinearOrderedField K] (x : K) : K :=
  trapmfS (-40) (-35) (-25) (-20) x

/-- Output membership `LittleNegative`, shape `[-25, -20, -10, -5]`. -/
def mfLittleNegative {K : Type*} [LinearOrderedField K] (x : K) : K :=
  trapmfS (-25) (-20) (-10) (-5) x

/-- Output membership `Zero`, triangle `[-10, 0, 10]`. -/
def mfZero {K : Type*} [LinearOrderedField K] (x : K) : K :=
  trimfS (-10) 0 10 x

/-- Output membership `LittlePositive`, shape `[5, 10, 20, 25]`. -/
def mfLittlePositive {K : Type*} [LinearOrderedField K] (x : K) : K :=
  trapmfS 5 10 20 25 x

/-- Output membership `Positive`, shape `[20, 25, 35, 40]`. -/
def mfPositive {K : Type*} [LinearOrderedField K] (x : K) : K :=
  trapmfS 20 25 35 40 x

/-- Output membership `VeryPositive`, shape `[35, 40, 50, 50]`. -/
def mfVeryPositive {K : Type*} [LinearOrderedField K] (x : K) : K :=
  trapmfS 35 40 50 50 x

/-- The discretized output universe `np.arange(-50, 50.1, 0.5)`:
201 points from -50 to 50 in steps of one half. -/
def anglePoints (K : Type*) [LinearOrderedField K] : List K :=
  (List.range 201).map (fun k : ℕ => -50 + (k : K) / 2)

/-- Firing strengths of the twelve rules of the AGV controller, in source
order (`&` is min, `~` is one minus the membership); rule 10 of the source
comment contributes two rules.  Modelled from the spec: section 4.3 rule
evaluation (AND = min, NOT = complement); the rule list itself is the one
configured in the AGV source. -/
def ruleStrengths {K : Type*} [LinearOrderedField K] (fv lv rv : K) : List K :=
  [memFar fv,
   fmin (fmin (memFar fv) (memFar rv)) (memFar lv),
   fmin (memNear rv) (1 - memNear lv),
   fmin (1 - memNear rv) (memNear lv),
   fmin (memFar rv) (memNear fv),
   fmin (memFar lv) (memNear fv),
   fmin (fmin (memFar rv) (memFar lv)) (memNear fv),
   fmin (memMedium fv) (memNear rv),
   fmin (memMedium fv) (memNear lv),
   fmin (fmin (memNear fv) (memNear rv)) (1 - memNear lv),
   fmin (fmin (memNear fv) (memNear lv)) (1 - memNear rv),
   fmin (fmin (memNear fv) (memNear rv)) (memNear lv)]

/-- The consequent membership value of each of the twelve rules at one output
point, in the same order as `ruleStrengths`. -/
def consAt {K : Type*} [LinearOrderedField K] (p : K) : List K :=
  [mfZero p, mfZero p, mfLittleNegative p, mfLittlePositive p, mfPositive p,
   mfNegative p, mfPositive p, mfLittleNegative p, mfLittlePositive p,
   mfNegative p, mfPositive p, mfVeryPositive p]

/-- Modelled from the spec: section 4.3 aggregation.  Each rule's contribution
at an output point is its consequent membership clipped at the firing strength
(pointwise min); the contributions are aggregated by pointwise max. -/
def aggAt {K : Type*} [LinearOrderedField K] (fv lv rv p : K) : K :=
  (List.zipWith fmin (ruleStrengths fv lv rv) (consAt p)).foldr fmax 0

/-- The aggregated output membership profile over the discretized universe. -/
def aggProfile {K : Type*} [LinearOrderedField K] (fv lv rv : K) : List K :=
  (anglePoints K).map (aggAt fv lv rv)

/-- Denominator of the centroid: the sum of the aggregated profile. -/
def aggSum {K : Type*} [LinearOrderedField K] (fv lv rv : K) : K :=
  (aggProfile fv lv rv).sum

/-- Numerator of the centroid: the sum of point times profile value. -/
def aggMoment {K : Type*} [LinearOrderedField K] (fv lv rv : K) : K :=
  (List.zipWith (fun a b => a * b) (anglePoints K) (aggProfile fv lv rv)).sum

/-- Modelled from the spec: section 4.4 centroid defuzzification,
`sum(x_k * profile(x_k)) / sum(profile(x_k))` over the discretized universe,
undefined (`none`) when the denominator is zero — the case in which the
library's `compute` raises and the source's `except` branch runs. -/
def inferAngle {K : Type*} [LinearOrderedField K] (fv lv rv : K) : Option K :=
  if aggSum fv lv rv = 0 then none else some (aggMoment fv lv rv / aggSum fv lv rv)

/-- `np.clip(v, 0, SENSOR_MAX)` from `fuzzy_steer`. -/
def clip {K : Type*} [LinearOrderedField K] (v : K) : K :=
  fmin (fmax v 0) 120

/-- `fuzzy_steer(front_val, left_val, right_val)` from the AGV source: clip the
inputs to the universe, run the inference; on a defined result return it (the
missing-output-key and NaN float artifacts of the library cannot arise in the
exact model); when inference is undefined (the library raises), run the
failsafe branch: `25` or `-25` toward the freer side if the clipped front
distance is below 25, else `0`. -/
def fuzzy_steer {K : Type*} [LinearOrderedField K] (front_val left_val right_val : K) : K :=
  let fv := clip front_val
  let lv := clip left_val
  let rv := clip right_val
  match inferAngle fv lv rv with
  | some v => v
  | none => if fv < 25 then (if lv ≤ rv then 25 else -25) else 0

/-! ### Basic facts about the membership algebra -/

theorem fmin_eq_min {K : Type*} [LinearOrderedField K] (a b : K) : fmin a b = min a b :=
  (min_def a b).symm

theorem fmax_eq_max {K : Type*} [LinearOrderedField K] (a b : K) : fmax a b = max a b :=
  (max_def a b).symm

theorem fmin_zero_left {K : Type*} [LinearOrderedField K] {x : K} (h : 0 ≤ x) :
    fmin 0 x = 0 := by
  simp [fmin, h]

theorem trapmfS_nonneg {K : Type*} [LinearOrderedField K] (a b c d x : K) :
    0 ≤ trapmfS a b c d x := by
  unfold trapmfS
  split_ifs with h1 h2 h3
  · norm_num
  · exact div_nonneg (by linarith [h2.1]) (by linarith [h2.1, h2.2])
  · exact div_nonneg (by linarith [h3.2]) (by linarith [h3.1, h3.2])
  · exact le_refl 0

theorem trapmfS_le_one {K : Type*} [LinearOrderedField K] (a b c d x : K) :
    trapmfS a b c d x ≤ 1 := by
  unfold trapmfS
  split_ifs with h1 h2 h3
  · exact le_refl 1
  · exact (div_le_one (by linarith [h2.1, h2.2])).2 (by linarith [h2.2])
  · exact (div_le_one (by linarith [h3.1, h3.2])).2 (by linarith [h3.1])
  · norm_num

theorem foldr_fmax_nonneg {K : Type*} [LinearOrderedField K] (l : List K) :
    0 ≤ l.foldr fmax 0 := by
  induction l with
  | nil => exact le_refl 0
  | cons x t ih =>
    simp only [List.foldr, fmax_eq_max]
    exact le_trans ih (le_max_right x _)

/-- The twelve consequent membership values at any output point are
nonnegative. -/
theorem consAt_nonneg {K : Type*} [LinearOrderedField K] (p : K) :
    ∀ x ∈ consAt p, 0 ≤ x := by
  intro x hx
  simp only [consAt, List.mem_cons, List.not_mem_nil, or_false] at hx
  rcases hx with rfl | rfl | rfl | rfl | rfl | rfl | rfl | rfl | rfl | rfl | rfl | rfl <;>
    exact trapmfS_nonneg _ _ _ _ _

/-- If no rule fires, the aggregated profile vanishes at every output point. -/
theorem aggAt_eq_zero {K : Type*} [LinearOrderedField K] {fv lv rv : K}
    (h : ruleStrengths fv lv rv = [0, 0, 0, 0, 0, 0, 0, 0, 0, 0, 0, 0]) (p : K) :
    aggAt fv lv rv p = 0 := by
  unfold aggAt
  rw [h]
  have h1 := consAt_nonneg p
  simp only [consAt, List.mem_cons, forall_eq_or_imp] at h1
  obtain ⟨n1, n2, n3, n4, n5, n6, n7, n8, n9, n10, n11, n12, -⟩ := h1
  simp only [consAt, List.zipWith, List.foldr, fmin_zero_left n1, fmin_zero_left n2,
    fmin_zero_left n3, fmin_zero_left n4, fmin_zero_left n5, fmin_zero_left n6,
    fmin_zero_left n7, fmin_zero_left n8, fmin_zero_left n9, fmin_zero_left n10,
    fmin_zero_left n11, fmin_zero_left n12, fmax]
  norm_num

/-- If no rule fires, the whole aggregated profile is zero. -/
theorem aggProfile_eq_zero {K : Type*} [LinearOrderedField K] {fv lv rv : K}
    (h : ruleStrengths fv lv rv = [0, 0, 0, 0, 0, 0, 0, 0, 0, 0, 0, 0]) :
    ∀ v ∈ aggProfile fv lv rv, v = 0 := by
  intro v hv
  obtain ⟨p, -, rfl⟩ := List.mem_map.1 hv
  exact aggAt_eq_zero h p

theorem anglePoints_mem_bounds {K : Type*} [LinearOrderedField K] {p : K}
    (hp : p ∈ anglePoints K) : -50 ≤ p ∧ p ≤ 50 := by
  obtain ⟨k, hk, rfl⟩ := List.mem_map.1 hp
  rw [List.mem_range] at hk
  have hk200 : (k : K) ≤ 200 := by exact_mod_cast Nat.le_of_lt_succ hk
  have hk0 : (0 : K) ≤ (k : K) := by positivity
  constructor
  · linarith
  · linarith

theorem aggAt_nonneg {K : Type*} [LinearOrderedField K] (fv lv rv p : K) :
    0 ≤ aggAt fv lv rv p :=
  foldr_fmax_nonneg _

theorem aggSum_nonneg {K : Type*} [LinearOrderedField K] (fv lv rv : K) :
    0 ≤ aggSum fv lv rv := by
  refine List.sum_nonneg ?_
  intro x hx
  obtain ⟨p, -, rfl⟩ := List.mem_map.1 hx
  exact aggAt_nonneg fv lv rv p

theorem aggMoment_eq {K : Type*} [LinearOrderedField K] (fv lv rv : K) :
    aggMoment fv lv rv = ((anglePoints K).map (fun p => p * aggAt fv lv rv p)).sum := by
  unfold aggMoment aggProfile
  rw [List.zipWith_map_right, List.zipWith_same]

theorem aggMoment_le {K : Type*} [LinearOrderedField K] (fv lv rv : K) :
    aggMoment fv lv rv ≤ 50 * aggSum fv lv rv := by
  rw [aggMoment_eq]
  unfold aggSum aggProfile
  rw [← List.sum_map_mul_left]
  refine List.sum_le_sum ?_
  intro p hp
  exact mul_le_mul_of_nonneg_right (anglePoints_mem_bounds hp).2 (aggAt_nonneg fv lv rv p)

theorem neg_le_aggMoment {K : Type*} [LinearOrderedField K] (fv lv rv : K) :
    (-50) * aggSum fv lv rv ≤ aggMoment fv lv rv := by
  rw [aggMoment_eq]
  unfold aggSum aggProfile
  rw [← List.sum_map_mul_left]
  refine List.sum_le_sum ?_
  intro p hp
  exact mul_le_mul_of_nonneg_right (anglePoints_mem_bounds hp).1 (aggAt_nonneg fv lv rv p)

/-- The steering command is always inside the output universe `[-50, 50]`:
both the centroid of a nonnegative profile and every failsafe constant lie
there, so the controller is total with a bounded output. -/
theorem fuzzy_steer_mem_Icc {K : Type*} [LinearOrderedField K] (f l r : K) :
    -50 ≤ fuzzy_steer f l r ∧ fuzzy_steer f l r ≤ 50 := by
  by_cases hs : aggSum (clip f) (clip l) (clip r) = 0
  · simp only [fuzzy_steer, inferAngle, if_pos hs]
    split_ifs <;> norm_num
  · simp only [fuzzy_steer, inferAngle, if_neg hs]
    have h0 : 0 < aggSum (clip f) (clip l) (clip r) :=
      lt_of_le_of_ne (aggSum_nonneg _ _ _) (Ne.symm hs)
    constructor
    · rw [le_div_iff₀ h0]
      linarith [neg_le_aggMoment (clip f) (clip l) (clip r)]
    · rw [div_le_iff₀ h0]
      linarith [aggMoment_le (clip f) (clip l) (clip r)]

/-! ### Claim C1: trapezoidal membership evaluation -/

/-- Claim C1 (counterexample): the claim asserts `trapmf` is 0 for every
`x ≤ a`, including the degenerate case `a = b`.  That fails: with the sorted
degenerate shape `a = b = 0 ≤ c = 2 ≤ d = 5`, the input `x = 0` satisfies
`x ≤ a`, yet the plateau mask `b ≤ x ≤ c` assigns membership 1 (the step at
`a` is closed on the plateau side, not zero). -/
theorem trapmf_degenerate_counterexample :
    (0:ℝ) ≤ 0 ∧ (0:ℝ) ≤ 2 ∧ (2:ℝ) ≤ 5 ∧ trapmf (0:ℝ) 0 0 2 5 = 1 ∧ (1:ℝ) ≠ 0 := by
  norm_num [trapmf]

/-- Claim C1 (amended): for a sorted trapezoid `a ≤ b ≤ c ≤ d` and any real
input, `trapmf` returns a degree in `[0, 1]`, equals 1 on the plateau
`[b, c]`, and equals 0 strictly outside `[a, d]`; the endpoints themselves
give 0 only on a non-degenerate edge (`x = a` when `a < b`, `x = d` when
`c < d`) — in the degenerate cases `a = b` or `c = d` the step point belongs
to the plateau and evaluates to 1. -/
theorem trapmf_range_plateau_zero (a b c d x : ℝ)
    (hab : a ≤ b) (hbc : b ≤ c) (hcd : c ≤ d) :
    (0 ≤ trapmf x a b c d ∧ trapmf x a b c d ≤ 1) ∧
    (b ≤ x → x ≤ c → trapmf x a b c d = 1) ∧
    (x < a → trapmf x a b c d = 0) ∧
    (d < x → trapmf x a b c d = 0) ∧
    (a < b → x ≤ a → trapmf x a b c d = 0) ∧
    (c < d → d ≤ x → trapmf x a b c d = 0) := by
  simp only [trapmf]
  split_ifs with h1 h2 h3
  · exact ⟨⟨div_nonneg (by linarith [h1.2.2]) (by linarith [h1.1]),
      (div_le_one (by linarith [h1.1])).2 (by linarith [h1.2.1])⟩,
      fun hb hc2 => absurd h1.2.1 (not_lt.2 hc2),
      fun hxa => by linarith [h1.2.1],
      fun hdx => by linarith [h1.2.2],
      fun h hxa => by linarith [h1.2.1],
      fun h hdx => by linarith [h1.2.2]⟩
  · exact ⟨⟨by norm_num, le_refl 1⟩,
      fun _ _ => rfl,
      fun hxa => by linarith [h2.1],
      fun hdx => by linarith [h2.2],
      fun h hxa => by linarith [h2.1],
      fun h hdx => by linarith [h2.2]⟩
  · exact ⟨⟨div_nonneg (by linarith [h3.2.1]) (by linarith [h3.1]),
      (div_le_one (by linarith [h3.1])).2 (by linarith [h3.2.2])⟩,
      fun hb hc2 => by linarith [h3.2.2],
      fun hxa => by linarith [h3.2.1],
      fun hdx => by linarith [h3.2.2],
      fun h hxa => by linarith [h3.2.1],
      fun h hdx => by linarith [h3.2.2]⟩
  · refine ⟨⟨le_refl 0, by norm_num⟩,
      fun hb hc2 => absurd ⟨hb, hc2⟩ h2,
      fun _ => rfl, fun _ => rfl, fun _ _ => rfl, fun _ _ => rfl⟩

/-- Claim C1 (witness): the amended theorem applied to the concrete sorted
trapezoid `(0, 1, 2, 3)` at the plateau point `x = 3/2`. -/
theorem trapmf_range_plateau_zero_witness : trapmf (3/2 : ℝ) 0 1 2 3 = 1 :=
  (trapmf_range_plateau_zero 0 1 2 3 (3/2) (by norm_num) (by norm_num)
    (by norm_num)).2.1 (by norm_num) (by norm_num)

/-! ### Claim C2: steering fallback when inference is undefined -/

/-- Claim C2 (counterexample): at front 10, left 85, right 85 every rule fires
at strength zero, so the aggregated profile is identically zero (inference is
undefined), yet `fuzzy_steer` returns the failsafe `25`, not the documented
fallback `0`. -/
theorem fuzzy_steer_undefined_counterexample :
    (∀ v ∈ aggProfile (clip (10:ℝ)) (clip 85) (clip 85), v = 0) ∧
    fuzzy_steer (10:ℝ) 85 85 = 25 ∧ (25:ℝ) ≠ 0 := by
  have hz : ruleStrengths (clip (10:ℝ)) (clip 85) (clip 85) =
      [0, 0, 0, 0, 0, 0, 0, 0, 0, 0, 0, 0] := by
    norm_num [clip, fmin, fmax, ruleStrengths, memNear, memMedium, memFar, trapmfS]
  have hall := aggProfile_eq_zero hz
  have hs : aggSum (clip (10:ℝ)) (clip 85) (clip 85) = 0 := List.sum_eq_zero hall
  refine ⟨hall, ?_, by norm_num⟩
  simp only [fuzzy_steer, inferAngle, if_pos hs]
  norm_num [clip, fmin, fmax]

/-- Claim C2 (amended): whenever the aggregated output profile is identically
zero, `fuzzy_steer` returns the failsafe of the exception branch — `0` when
the clipped front distance is at least 25, and `25`/`-25` toward the side
with more clearance (right on ties) when it is below 25.  No exception
escapes and the result is always inside `[-50, 50]` (never NaN; the
missing-key and NaN checks of the source cannot fire in exact arithmetic and
also return 0). -/
theorem fuzzy_steer_undefined_fallback (f l r : ℝ)
    (h : ∀ v ∈ aggProfile (clip f) (clip l) (clip r), v = 0) :
    fuzzy_steer f l r =
      (if clip f < 25 then (if clip l ≤ clip r then (25:ℝ) else -25) else 0) ∧
    -50 ≤ fuzzy_steer f l r ∧ fuzzy_steer f l r ≤ 50 := by
  have hs : aggSum (clip f) (clip l) (clip r) = 0 := List.sum_eq_zero h
  refine ⟨?_, fuzzy_steer_mem_Icc f l r⟩
  simp only [fuzzy_steer, inferAngle, if_pos hs]

/-- Claim C2 (witness): the amended theorem at front 85, left 120, right 120,
where no rule fires and the clipped front distance is at least 25, so the
returned failsafe is 0. -/
theorem fuzzy_steer_undefined_fallback_witness : fuzzy_steer (85:ℝ) 120 120 = 0 := by
  have hz : ruleStrengths (clip (85:ℝ)) (clip 120) (clip 120) =
      [0, 0, 0, 0, 0, 0, 0, 0, 0, 0, 0, 0] := by
    norm_num [clip, fmin, fmax, ruleStrengths, memNear, memMedium, memFar, trapmfS]
  have h := (fuzzy_steer_undefined_fallback 85 120 120 (aggProfile_eq_zero hz)).1
  rw [h]
  norm_num [clip, fmin, fmax]

/-! ### Occupancy grid and ray-cast sensing -/

/-- The occupancy grid: a wall predicate on integer cells, column `gx` and
row `gy` (the source indexes `grid[gy, gx]`). -/
abbrev Grid := ℤ → ℤ → Bool

/-- `COLS = WIDTH // GRID = 1240 // 10` from the source. -/
def COLS : ℤ := 124

/-- `ROWS = HEIGHT // GRID = 1000 // 10` from the source. -/
def ROWS : ℤ := 100

/-- The in-bounds test `0 <= gx < COLS and 0 <= gy < ROWS` from the source. -/
def cellInBounds (gx gy : ℤ) : Prop :=
  0 ≤ gx ∧ gx < COLS ∧ 0 ≤ gy ∧ gy < ROWS

instance (gx gy : ℤ) : Decidable (cellInBounds gx gy) := by
  unfold cellInBounds COLS ROWS
  infer_instance

/-- An entirely empty grid. -/
def emptyGrid : Grid := fun _ _ => false

/-- `math.radians`: degrees to radians. -/
noncomputable def radians (a : ℝ) : ℝ := a * Real.pi / 180

/-- The marching loop of `raycast_distance`, with explicit fuel: each
iteration tests `dist < max_dist`, samples the point
`(x + c * dist, y + s * dist)` where `c` and `s` are the direction cosines of
the ray, returns `dist` when the sampled cell is out of bounds or a wall, and
otherwise advances by the fixed step `2.0`; when the loop condition fails the
accumulated distance equals `max_dist`, which is returned.  The fuel only
bounds the recursion; `raycast_distance` supplies exactly the fuel after
which the loop condition fails, so the zero-fuel value `max_dist` is the
loop's own exit value. -/
noncomputable def raymarch (g : Grid) (x y c s max_dist : ℝ) : ℕ → ℝ → ℝ
  | 0, _ => max_dist
  | fuel + 1, dist =>
    if dist < max_dist then
      if ¬ cellInBounds ⌊(x + c * dist) / 10⌋ ⌊(y + s * dist) / 10⌋ then dist
      else if g ⌊(x + c * dist) / 10⌋ ⌊(y + s * dist) / 10⌋ then dist
      else raymarch g x y c s max_dist fuel (dist + 2)
    else max_dist

/-- The number of loop iterations `raymarch` executes. -/
noncomputable def marchIters (g : Grid) (x y c s max_dist : ℝ) : ℕ → ℝ → ℕ
  | 0, _ => 0
  | fuel + 1, dist =>
    if dist < max_dist then
      if ¬ cellInBounds ⌊(x + c * dist) / 10⌋ ⌊(y + s * dist) / 10⌋ then 1
      else if g ⌊(x + c * dist) / 10⌋ ⌊(y + s * dist) / 10⌋ then 1
      else 1 + marchIters g x y c s max_dist fuel (dist + 2)
    else 0

/-- `raycast_distance(x, y, angle_deg, max_dist)` from the AGV source: march
from `(x, y)` along the direction of `angle_deg` (degrees) in steps of 2
pixels until a wall cell, the grid boundary, or `max_dist`. -/
noncomputable def raycast_distance (g : Grid) (x y angle_deg max_dist : ℝ) : ℝ :=
  raymarch g x y (Real.cos (radians angle_deg)) (Real.sin (radians angle_deg))
    max_dist ⌈max_dist / 2⌉₊ 0

/-- The sample point of the ray from `(x, y)` at angle `a` (degrees) after
travelling distance `t`. -/
noncomputable def rayPoint (x y a t : ℝ) : ℝ × ℝ :=
  (x + Real.cos (radians a) * t, y + Real.sin (radians a) * t)

/-- A position whose cell is inside the grid and free. -/
def cellFreeAt (g : Grid) (rx ry : ℝ) : Prop :=
  cellInBounds ⌊rx / 10⌋ ⌊ry / 10⌋ ∧ g ⌊rx / 10⌋ ⌊ry / 10⌋ = false

/-- A position whose cell is inside the grid and occupied; this is also the
collision test of `update` (projected positions outside the grid are not
caught by it). -/
def cellWallAt (g : Grid) (rx ry : ℝ) : Prop :=
  cellInBounds ⌊rx / 10⌋ ⌊ry / 10⌋ ∧ g ⌊rx / 10⌋ ⌊ry / 10⌋ = true

noncomputable instance (g : Grid) (rx ry : ℝ) : Decidable (cellWallAt g rx ry) := by
  unfold cellWallAt
  infer_instance

/-! ### The vehicle and its control loop -/

/-- The car state of the AGV source: position, heading (degrees), speed in
pixels per frame, smoothed steering, breadcrumb trail. -/
structure Car where
  x : ℝ
  y : ℝ
  heading : ℝ
  speed : ℝ
  steering : ℝ
  history : List (ℝ × ℝ)

/-- `sense(car)`: front, left, right distances along the relative sensor
angles `0, -45, +45`, each clipped to `SENSOR_MAX = 120`. -/
noncomputable def sense (g : Grid) (car : Car) : ℝ × ℝ × ℝ :=
  (min (raycast_distance g car.x car.y (car.heading + 0) 120) 120,
   min (raycast_distance g car.x car.y (car.heading + (-45)) 120) 120,
   min (raycast_distance g car.x car.y (car.heading + 45) 120) 120)

/-- The raw steering command of one tick: `fuzzy_steer` on the sensed
distances. -/
noncomputable def steerCmd (g : Grid) (car : Car) : ℝ :=
  fuzzy_steer (sense g car).1 (sense g car).2.1 (sense g car).2.2

/-- The smoothing step `0.7 * steering + 0.3 * steering_change` of `update`. -/
def smooth (s0 sc : ℝ) : ℝ := 0.7 * s0 + 0.3 * sc

/-- The emergency override of `update`: if the front distance is below the
near-collision threshold 25, add 20 degrees toward the side whose sensor
reports more clearance, with ties broken toward the right (`+20`). -/
noncomputable def applyOverride (s fd ld rd : ℝ) : ℝ :=
  if fd < 25 then
    (if ld < rd then s + 20 else if rd < ld then s - 20 else s + 20)
  else s

/-- The steering state after smoothing and emergency override in one tick. -/
noncomputable def tickSteering (g : Grid) (car : Car) : ℝ :=
  applyOverride (smooth car.steering (steerCmd g car))
    (sense g car).1 (sense g car).2.1 (sense g car).2.2

/-- The sequential heading wrap of `update`: subtract 360 if above 180, then
add 360 if below -180. -/
noncomputable def wrapHeading (h1 : ℝ) : ℝ :=
  let h2 := if h1 > 180 then h1 - 360 else h1
  if h2 < -180 then h2 + 360 else h2

/-- The heading after one tick: integrate `steering * dt * 1.6` and wrap. -/
noncomputable def tickHeading (g : Grid) (car : Car) (dt : ℝ) : ℝ :=
  wrapHeading (car.heading + tickSteering g car * dt * 1.6)

/-- Projected x position of one tick: move along the new heading at constant
speed scaled by `dt * FPS`. -/
noncomputable def projX (g : Grid) (car : Car) (dt : ℝ) : ℝ :=
  car.x + Real.cos (radians (tickHeading g car dt)) * car.speed * dt * 60

/-- Projected y position of one tick. -/
noncomputable def projY (g : Grid) (car : Car) (dt : ℝ) : ℝ :=
  car.y + Real.sin (radians (tickHeading g car dt)) * car.speed * dt * 60

/-- One simulation tick, `update(car, dt)` from the AGV source: sense, fuzzy
steering with smoothing and emergency override, heading integration and wrap,
position integration, collision resolution (reject the projected position if
it falls on an in-bounds wall cell, back off 4 pixels along the reverse
heading, nudge the heading 25 degrees away from the nearer side sensor), and
breadcrumb trail append.  The sensed distances and the raw command that the
source returns for display are `sense g car` and `steerCmd g car`. -/
noncomputable def update (g : Grid) (car : Car) (dt : ℝ) : Car :=
  let ld := (sense g car).2.1
  let rd := (sense g car).2.2
  let s2 := tickSteering g car
  let h3 := tickHeading g car dt
  let newx := projX g car dt
  let newy := projY g car dt
  let ph : ℝ × ℝ × ℝ :=
    if cellWallAt g newx newy then
      (car.x - Real.cos (radians h3) * 4, car.y - Real.sin (radians h3) * 4,
       if rd < ld then h3 - 25 else h3 + 25)
    else (newx, newy, h3)
  let hist :=
    match car.history.getLast? with
    | none => car.history ++ [(ph.1, ph.2.1)]
    | some q =>
      if 4 < |ph.1 - q.1| + |ph.2.1 - q.2| then car.history ++ [(ph.1, ph.2.1)]
      else car.history
  { x := ph.1, y := ph.2.1, heading := ph.2.2, speed := car.speed,
    steering := s2, history := hist }

/-! ### Facts about the marching loop -/

theorem raymarch_le (g : Grid) (x y c s m : ℝ) :
    ∀ (fuel : ℕ) (dist : ℝ), 0 ≤ dist → 0 ≤ m →
      0 ≤ raymarch g x y c s m fuel dist ∧ raymarch g x y c s m fuel dist ≤ m := by
  intro fuel
  induction fuel with
  | zero =>
    intro dist h0 hm
    simp only [raymarch]
    exact ⟨hm, le_refl m⟩
  | succ f ih =>
    intro dist h0 hm
    simp only [raymarch]
    split_ifs with h1 h2 h3
    · exact ⟨h0, le_of_lt h1⟩
    · exact ih (dist + 2) (by linarith) hm
    · exact ⟨h0, le_of_lt h1⟩
    · exact ⟨hm, le_refl m⟩

theorem raymarch_fuel_add (g : Grid) (x y c s m : ℝ) :
    ∀ (fuel j : ℕ) (dist : ℝ), m ≤ dist + 2 * (fuel : ℝ) →
      raymarch g x y c s m (fuel + j) dist = raymarch g x y c s m fuel dist := by
  intro fuel
  induction fuel with
  | zero =>
    intro j dist hm
    cases j with
    | zero => rfl
    | succ j2 =>
      simp only [Nat.zero_add, raymarch]
      rw [if_neg (not_lt.2 (by push_cast at hm; linarith))]
  | succ f ih =>
    intro j dist hm
    have hs : f + 1 + j = (f + j) + 1 := by omega
    rw [hs]
    simp only [raymarch]
    split_ifs with h1 h2 h3
    · rfl
    · exact ih j (dist + 2) (by push_cast at hm ⊢; linarith)
    · rfl
    · rfl

theorem marchIters_le (g : Grid) (x y c s m : ℝ) :
    ∀ (fuel : ℕ) (dist : ℝ), marchIters g x y c s m fuel dist ≤ ⌈(m - dist) / 2⌉₊ := by
  intro fuel
  induction fuel with
  | zero =>
    intro dist
    simp [marchIters]
  | succ f ih =>
    intro dist
    simp only [marchIters]
    split_ifs with h1 h2 h3
    · exact Nat.one_le_iff_ne_zero.2 (by
        intro h0
        have : (0:ℝ) < (m - dist) / 2 := by linarith
        linarith [Nat.ceil_eq_zero.1 h0])
    · by_cases hu : dist + 2 ≤ m
      · have hrw : (m - dist) / 2 = (m - (dist + 2)) / 2 + 1 := by ring
        rw [hrw, Nat.ceil_add_one (by linarith)]
        have := ih (dist + 2)
        omega
      · have hz : marchIters g x y c s m f (dist + 2) = 0 := by
          have h0 : ⌈(m - (dist + 2)) / 2⌉₊ = 0 := Nat.ceil_eq_zero.2 (by linarith)
          have := ih (dist + 2)
          omega
        rw [hz]
        have : (0:ℝ) < (m - dist) / 2 := by linarith
        have := Nat.ceil_pos.2 this
        omega
    · exact Nat.one_le_iff_ne_zero.2 (by
        intro h0
        have : (0:ℝ) < (m - dist) / 2 := by linarith
        linarith [Nat.ceil_eq_zero.1 h0])
    · exact Nat.zero_le _

theorem raymarch_free_samples (g : Grid) (x y c s m : ℝ)
    (hfree : ∀ k : ℕ, 2 * (k : ℝ) < m →
      cellFreeAt g (x + c * (2 * (k : ℝ))) (y + s * (2 * (k : ℝ)))) :
    ∀ (fuel j : ℕ), raymarch g x y c s m fuel (2 * (j : ℝ)) = m := by
  intro fuel
  induction fuel with
  | zero =>
    intro j
    simp [raymarch]
  | succ f ih =>
    intro j
    simp only [raymarch]
    by_cases h1 : 2 * (j : ℝ) < m
    · have hf := hfree j h1
      rw [if_pos h1, if_neg (not_not_intro hf.1), if_neg (by simp [hf.2])]
      rw [show 2 * ((j:ℝ)) + 2 = 2 * (((j + 1 : ℕ)) : ℝ) by push_cast; ring]
      exact ih (j + 1)
    · rw [if_neg h1]

theorem raymarch_exits_at (g : Grid) (x y c s m : ℝ) (K0 : ℕ)
    (hfree : ∀ k : ℕ, k < K0 →
      cellFreeAt g (x + c * (2 * (k : ℝ))) (y + s * (2 * (k : ℝ))))
    (hexit : ¬ cellFreeAt g (x + c * (2 * (K0 : ℝ))) (y + s * (2 * (K0 : ℝ))))
    (hm : 2 * (K0 : ℝ) < m) :
    ∀ (fuel j : ℕ), j ≤ K0 → K0 - j < fuel →
      raymarch g x y c s m fuel (2 * (j : ℝ)) = 2 * (K0 : ℝ) := by
  intro fuel
  induction fuel with
  | zero =>
    intro j hj hf
    omega
  | succ f ih =>
    intro j hj hf
    by_cases hjK : j = K0
    · subst hjK
      simp only [raymarch]
      rw [if_pos hm]
      by_cases hA : cellInBounds ⌊(x + c * (2 * (j:ℝ))) / 10⌋ ⌊(y + s * (2 * (j:ℝ))) / 10⌋
      · rw [if_neg (not_not_intro hA)]
        have hg : g ⌊(x + c * (2 * (j:ℝ))) / 10⌋ ⌊(y + s * (2 * (j:ℝ))) / 10⌋ = true := by
          rcases Bool.eq_false_or_eq_true
              (g ⌊(x + c * (2 * (j:ℝ))) / 10⌋ ⌊(y + s * (2 * (j:ℝ))) / 10⌋) with hb | hb
          · exact hb
          · exact absurd ⟨hA, hb⟩ hexit
        rw [if_pos hg]
      · rw [if_pos hA]
    · have hjlt : j < K0 := lt_of_le_of_ne hj hjK
      have hcast : (j : ℝ) ≤ (K0 : ℝ) := Nat.cast_le.2 hj
      have hd : 2 * (j : ℝ) < m := by linarith
      have hfj := hfree j hjlt
      simp only [raymarch]
      rw [if_pos hd, if_neg (not_not_intro hfj.1), if_neg (by simp [hfj.2])]
      rw [show 2 * ((j:ℝ)) + 2 = 2 * (((j + 1 : ℕ)) : ℝ) by push_cast; ring]
      exact ih (j + 1) (by omega) (by omega)

theorem raycast_blocked (g : Grid) (x y a m : ℝ) (hm : 0 < m)
    (hb : ¬ cellFreeAt g x y) : raycast_distance g x y a m = 0 := by
  unfold raycast_distance
  have hexit : ¬ cellFreeAt g (x + Real.cos (radians a) * (2 * ((0:ℕ):ℝ)))
      (y + Real.sin (radians a) * (2 * ((0:ℕ):ℝ))) := by simpa using hb
  have h := raymarch_exits_at g x y (Real.cos (radians a)) (Real.sin (radians a)) m 0
    (fun k hk => absurd hk (Nat.not_lt_zero k)) hexit (by simpa using hm)
    ⌈m / 2⌉₊ 0 (le_refl 0)
    (by
      have : 0 < ⌈m / 2⌉₊ := Nat.ceil_pos.2 (by linarith)
      omega)
  simpa using h

theorem sense_blocked (g : Grid) (car : Car) (hb : ¬ cellFreeAt g car.x car.y) :
    sense g car = (0, 0, 0) := by
  unfold sense
  rw [raycast_blocked g car.x car.y _ 120 (by norm_num) hb,
    raycast_blocked g car.x car.y _ 120 (by norm_num) hb,
    raycast_blocked g car.x car.y _ 120 (by norm_num) hb]
  norm_num

theorem raycast_range (g : Grid) (x y a m : ℝ) (hm : 0 ≤ m) :
    0 ≤ raycast_distance g x y a m ∧ raycast_distance g x y a m ≤ m :=
  raymarch_le g x y _ _ m ⌈m / 2⌉₊ 0 (le_refl 0) hm

/-! ### Claim C10: rays that start blocked, and the range of the result -/

/-- Claim C10: when the ray's start position already lies in a wall cell or
outside the grid, the loop samples the start at accumulated distance 0 and
returns 0 (for a positive range such as the sensor range 120), so `sense`
reports `(0, 0, 0)`; and for a nonnegative range the result always lies in
`[0, max_dist]`. -/
theorem raycast_start_blocked (g : Grid) (car : Car) (a m : ℝ) :
    (0 < m → ¬ cellFreeAt g car.x car.y → raycast_distance g car.x car.y a m = 0) ∧
    (¬ cellFreeAt g car.x car.y → sense g car = (0, 0, 0)) ∧
    (0 ≤ m → 0 ≤ raycast_distance g car.x car.y a m ∧
      raycast_distance g car.x car.y a m ≤ m) :=
  ⟨fun hm hb => raycast_blocked g car.x car.y a m hm hb,
   fun hb => sense_blocked g car hb,
   fun hm => raycast_range g car.x car.y a m hm⟩

/-- Claim C10 (witness): a car placed at `(-5, 50)`, outside the left grid
edge, on the empty grid: the ray returns 0 and `sense` reports `(0, 0, 0)`. -/
theorem raycast_start_blocked_witness :
    raycast_distance emptyGrid (-5) 50 0 120 = 0 ∧
    sense emptyGrid ⟨-5, 50, 0, 1.5, 0, []⟩ = (0, 0, 0) := by
  have hb : ¬ cellFreeAt emptyGrid (-5 : ℝ) (50 : ℝ) := by
    intro hfree
    have h1 := hfree.1.1
    have h2 : ⌊(-5:ℝ)/10⌋ = -1 := by norm_num
    omega
  exact ⟨(raycast_start_blocked emptyGrid ⟨-5, 50, 0, 1.5, 0, []⟩ 0 120).1
      (by norm_num) hb,
    (raycast_start_blocked emptyGrid ⟨-5, 50, 0, 1.5, 0, []⟩ 0 120).2.1 hb⟩

/-! ### Claim C9: the marching loop is bounded -/

/-- Claim C9: for the sensor range 120 and step 2 the marching loop of
`raycast_distance` executes at most `120 / 2 = 60` iterations whatever fuel
it is given, giving it fuel beyond 60 never changes the result, and
`raycast_distance` at range 120 is the march with exactly 60 iterations of
fuel — the loop terminates on every input within the fixed bound. -/
theorem raycast_bounded_iterations (g : Grid) (x y c s a : ℝ) (fuel n : ℕ) :
    marchIters g x y c s 120 fuel 0 ≤ 60 ∧
    raymarch g x y c s 120 (60 + n) 0 = raymarch g x y c s 120 60 0 ∧
    raycast_distance g x y a 120 =
      raymarch g x y (Real.cos (radians a)) (Real.sin (radians a)) 120 60 0 := by
  have hceil : ⌈((120:ℝ) - 0) / 2⌉₊ = 60 := by
    rw [show ((120:ℝ) - 0) / 2 = ((60:ℕ):ℝ) by norm_num, Nat.ceil_natCast]
  refine ⟨?_, ?_, ?_⟩
  · have h := marchIters_le g x y c s 120 fuel 0
    rwa [hceil] at h
  · exact raymarch_fuel_add g x y c s 120 60 n 0 (by norm_num)
  · unfold raycast_distance
    have h2 : ⌈(120:ℝ) / 2⌉₊ = 60 := by
      rw [show ((120:ℝ)) / 2 = ((60:ℕ):ℝ) by norm_num, Nat.ceil_natCast]
    rw [h2]

/-! ### Trigonometric values of the sensor angles -/

theorem radians_eq (a : ℝ) : radians a = a * Real.pi / 180 := rfl

theorem cos_radians_zero : Real.cos (radians 0) = 1 := by
  rw [radians_eq, show (0:ℝ) * Real.pi / 180 = 0 by ring, Real.cos_zero]

theorem sin_radians_zero : Real.sin (radians 0) = 0 := by
  rw [radians_eq, show (0:ℝ) * Real.pi / 180 = 0 by ring, Real.sin_zero]

theorem cos_radians_180 : Real.cos (radians 180) = -1 := by
  rw [radians_eq, show (180:ℝ) * Real.pi / 180 = Real.pi by ring, Real.cos_pi]

theorem sin_radians_180 : Real.sin (radians 180) = 0 := by
  rw [radians_eq, show (180:ℝ) * Real.pi / 180 = Real.pi by ring, Real.sin_pi]

theorem cos_radians_45 : Real.cos (radians 45) = Real.sqrt 2 / 2 := by
  rw [radians_eq, show (45:ℝ) * Real.pi / 180 = Real.pi / 4 by ring,
    Real.cos_pi_div_four]

theorem sin_radians_45 : Real.sin (radians 45) = Real.sqrt 2 / 2 := by
  rw [radians_eq, show (45:ℝ) * Real.pi / 180 = Real.pi / 4 by ring,
    Real.sin_pi_div_four]

theorem cos_radians_neg45 : Real.cos (radians (-45)) = Real.sqrt 2 / 2 := by
  rw [radians_eq, show (-45:ℝ) * Real.pi / 180 = -(Real.pi / 4) by ring,
    Real.cos_neg, Real.cos_pi_div_four]

theorem sin_radians_neg45 : Real.sin (radians (-45)) = -(Real.sqrt 2 / 2) := by
  rw [radians_eq, show (-45:ℝ) * Real.pi / 180 = -(Real.pi / 4) by ring,
    Real.sin_neg, Real.sin_pi_div_four]

theorem sqrt2_lt : Real.sqrt 2 < 3 / 2 :=
  (Real.sqrt_lt' (by norm_num)).2 (by norm_num)

theorem one_le_sqrt2 : 1 ≤ Real.sqrt 2 :=
  (Real.le_sqrt (by norm_num) (by norm_num)).2 (by norm_num)

/-! ### Rays on in-bound free cells -/

theorem cellInBounds_of_pos (rx ry : ℝ) (h1 : 0 ≤ rx) (h2 : rx < 1240)
    (h3 : 0 ≤ ry) (h4 : ry < 1000) : cellInBounds ⌊rx / 10⌋ ⌊ry / 10⌋ := by
  unfold cellInBounds COLS ROWS
  refine ⟨Int.floor_nonneg.2 (by positivity), ?_, Int.floor_nonneg.2 (by positivity), ?_⟩
  · exact Int.floor_lt.2 (by push_cast; linarith)
  · exact Int.floor_lt.2 (by push_cast; linarith)

theorem cellFreeAt_empty (rx ry : ℝ) (h1 : 0 ≤ rx) (h2 : rx < 1240)
    (h3 : 0 ≤ ry) (h4 : ry < 1000) : cellFreeAt emptyGrid rx ry :=
  ⟨cellInBounds_of_pos rx ry h1 h2 h3 h4, rfl⟩

theorem raycast_free (g : Grid) (x y a m : ℝ)
    (hfree : ∀ k : ℕ, 2 * (k:ℝ) < m →
      cellFreeAt g (rayPoint x y a (2 * (k:ℝ))).1 (rayPoint x y a (2 * (k:ℝ))).2) :
    raycast_distance g x y a m = m := by
  unfold raycast_distance
  have h := raymarch_free_samples g x y (Real.cos (radians a)) (Real.sin (radians a)) m
    (by intro k hk; simpa [rayPoint] using hfree k hk) ⌈m / 2⌉₊ 0
  simpa using h

theorem sense_empty_100 (car : Car) (hx : car.x = 100) (hy : car.y = 100)
    (hh : car.heading = 0) : sense emptyGrid car = (120, 120, 120) := by
  unfold sense
  rw [hx, hy, hh]
  have h45 : Real.sqrt 2 * 60 < 100 := by nlinarith [sqrt2_lt, Real.sqrt_nonneg 2]
  have hcore : ∀ k : ℕ, 2 * (k:ℝ) < 120 →
      0 ≤ Real.sqrt 2 * (k:ℝ) ∧ Real.sqrt 2 * (k:ℝ) < 100 := by
    intro k hk
    have hk0 : (0:ℝ) ≤ (k:ℝ) := Nat.cast_nonneg k
    have hk60 : (k:ℝ) < 60 := by linarith
    constructor
    · positivity
    · nlinarith [Real.sqrt_nonneg 2]
  have hfront : raycast_distance emptyGrid 100 100 (0 + 0) 120 = 120 := by
    refine raycast_free emptyGrid 100 100 (0 + 0) 120 ?_
    intro k hk
    have hk0 : (0:ℝ) ≤ (k:ℝ) := Nat.cast_nonneg k
    simp only [rayPoint, show (0:ℝ) + 0 = 0 by norm_num, cos_radians_zero,
      sin_radians_zero, one_mul, zero_mul, add_zero]
    exact cellFreeAt_empty _ _ (by linarith) (by linarith) (by norm_num) (by norm_num)
  have hleft : raycast_distance emptyGrid 100 100 (0 + -45) 120 = 120 := by
    refine raycast_free emptyGrid 100 100 (0 + -45) 120 ?_
    intro k hk
    obtain ⟨hlb, hub⟩ := hcore k hk
    simp only [rayPoint, show (0:ℝ) + -45 = -45 by norm_num, cos_radians_neg45,
      sin_radians_neg45]
    rw [show (100:ℝ) + Real.sqrt 2 / 2 * (2 * (k:ℝ)) = 100 + Real.sqrt 2 * (k:ℝ) by ring,
      show (100:ℝ) + -(Real.sqrt 2 / 2) * (2 * (k:ℝ)) = 100 - Real.sqrt 2 * (k:ℝ) by ring]
    exact cellFreeAt_empty _ _ (by linarith) (by linarith) (by linarith) (by linarith)
  have hright : raycast_distance emptyGrid 100 100 (0 + 45) 120 = 120 := by
    refine raycast_free emptyGrid 100 100 (0 + 45) 120 ?_
    intro k hk
    obtain ⟨hlb, hub⟩ := hcore k hk
    simp only [rayPoint, show (0:ℝ) + 45 = 45 by norm_num, cos_radians_45,
      sin_radians_45]
    rw [show (100:ℝ) + Real.sqrt 2 / 2 * (2 * (k:ℝ)) = 100 + Real.sqrt 2 * (k:ℝ) by ring]
    exact cellFreeAt_empty _ _ (by linarith) (by linarith) (by linarith) (by linarith)
  rw [hfront, hleft, hright]
  norm_num

/-! ### Claim C5: rays on the empty grid -/

/-- Claim C5 (counterexample): on the all-empty grid the ray from `(100,100)`
at angle 180 degrees leaves the grid through the left edge: at the 51st step
the sample `(-2, 100)` is out of bounds, so `raycast_distance` returns the
accumulated distance 102, not `max_range = 120` — the claim's "exactly
max_range for every relative angle" fails for rays that exit the bounds. -/
theorem raycast_empty_exits_counterexample :
    raycast_distance emptyGrid 100 100 180 120 = 102 ∧ (102:ℝ) ≠ 120 := by
  refine ⟨?_, by norm_num⟩
  unfold raycast_distance
  rw [cos_radians_180, sin_radians_180]
  have hceil : ⌈(120:ℝ) / 2⌉₊ = 60 := by
    rw [show ((120:ℝ)) / 2 = ((60:ℕ):ℝ) by norm_num, Nat.ceil_natCast]
  have hfree : ∀ k : ℕ, k < 51 →
      cellFreeAt emptyGrid (100 + (-1) * (2 * (k:ℝ))) (100 + 0 * (2 * (k:ℝ))) := by
    intro k hk
    have hk50 : (k:ℝ) ≤ 50 := by exact_mod_cast Nat.lt_succ_iff.1 hk
    have hk0 : (0:ℝ) ≤ (k:ℝ) := Nat.cast_nonneg k
    rw [show (100:ℝ) + (-1) * (2 * (k:ℝ)) = 100 - 2 * (k:ℝ) by ring,
      show (100:ℝ) + 0 * (2 * (k:ℝ)) = 100 by ring]
    exact cellFreeAt_empty _ _ (by linarith) (by linarith) (by norm_num) (by norm_num)
  have hexit : ¬ cellFreeAt emptyGrid (100 + (-1) * (2 * ((51:ℕ):ℝ)))
      (100 + 0 * (2 * ((51:ℕ):ℝ))) := by
    intro hf
    have h1 := hf.1.1
    rw [show (100:ℝ) + (-1) * (2 * ((51:ℕ):ℝ)) = -2 by push_cast; ring] at h1
    have h2 : ⌊(-2:ℝ)/10⌋ = -1 := by norm_num
    omega
  have h := raymarch_exits_at emptyGrid 100 100 (-1) 0 120 51 hfree hexit
    (by push_cast; norm_num) ⌈(120:ℝ)/2⌉₊ 0 (Nat.zero_le 51)
    (by rw [hceil]; omega)
  rw [show 2 * ((0:ℕ):ℝ) = 0 by push_cast; ring] at h
  rw [h]
  push_cast
  norm_num

/-- Claim C5 (amended): ray-casting against the all-empty grid returns
exactly `max_range` for every relative angle whose sample points all remain
inside the grid bounds (a ray that leaves the grid instead returns the
accumulated distance at exit); in particular the scenario holds: a vehicle at
`(100, 100)` with heading 0 and sensors at `0, -45, +45` degrees senses
`(120, 120, 120)`. -/
theorem raycast_empty_grid_max_range :
    (∀ (g : Grid) (x y a m : ℝ),
      (∀ k : ℕ, 2 * (k:ℝ) < m →
        cellFreeAt g (rayPoint x y a (2 * (k:ℝ))).1 (rayPoint x y a (2 * (k:ℝ))).2) →
      raycast_distance g x y a m = m) ∧
    (∀ car : Car, car.x = 100 → car.y = 100 → car.heading = 0 →
      sense emptyGrid car = (120, 120, 120)) :=
  ⟨raycast_free, sense_empty_100⟩

/-- Claim C5 (witness): the amended theorem applied to the concrete car at
`(100, 100)` with heading 0 on the empty grid, and to the front ray. -/
theorem raycast_empty_grid_max_range_witness :
    sense emptyGrid ⟨100, 100, 0, 1.5, 0, []⟩ = (120, 120, 120) ∧
    raycast_distance emptyGrid 100 100 0 120 = 120 := by
  refine ⟨raycast_empty_grid_max_range.2 ⟨100, 100, 0, 1.5, 0, []⟩ rfl rfl rfl, ?_⟩
  refine raycast_empty_grid_max_range.1 emptyGrid 100 100 0 120 ?_
  intro k hk
  have hk0 : (0:ℝ) ≤ (k:ℝ) := Nat.cast_nonneg k
  simp only [rayPoint, cos_radians_zero, sin_radians_zero, one_mul, zero_mul, add_zero]
  exact cellFreeAt_empty _ _ (by linarith) (by linarith) (by norm_num) (by norm_num)

/-! ### Claim C6: a wall at geometric distance d is reported within one step -/

/-- Claim C6: if every sample point strictly before distance `d` lies on a
free in-bounds cell and every sample point at distance in `[d, d + 2]` lies
on an in-bounds wall cell, then the march — fixed 2-pixel steps until a wall
cell, the grid edge, or `max_range`, with the loop-exit value clamped to
`max_range` — returns an accumulated distance within one step of `d`:
`d ≤ raycast_distance ≤ d + 2`. -/
theorem raycast_wall_within_step (g : Grid) (x y a d m : ℝ)
    (hd : 0 ≤ d) (hdm : d < m)
    (hfree : ∀ k : ℕ, 2 * (k:ℝ) < d →
      cellFreeAt g (rayPoint x y a (2 * (k:ℝ))).1 (rayPoint x y a (2 * (k:ℝ))).2)
    (hwall : ∀ k : ℕ, d ≤ 2 * (k:ℝ) → 2 * (k:ℝ) ≤ d + 2 →
      cellWallAt g (rayPoint x y a (2 * (k:ℝ))).1 (rayPoint x y a (2 * (k:ℝ))).2) :
    d ≤ raycast_distance g x y a m ∧ raycast_distance g x y a m ≤ d + 2 := by
  set c := Real.cos (radians a) with hc
  set s := Real.sin (radians a) with hs
  set K0 : ℕ := ⌈d / 2⌉₊ with hK0
  have hK0l : d ≤ 2 * (K0:ℝ) := by
    have := Nat.le_ceil (d / 2)
    rw [← hK0] at this
    linarith
  have hK0u : 2 * (K0:ℝ) < d + 2 := by
    have := Nat.ceil_lt_add_one (by positivity : (0:ℝ) ≤ d / 2)
    rw [← hK0] at this
    linarith
  have hfree2 : ∀ k : ℕ, k < K0 →
      cellFreeAt g (x + c * (2 * (k:ℝ))) (y + s * (2 * (k:ℝ))) := by
    intro k hk
    have h2k : 2 * (k:ℝ) < d := by
      have hkK : (k:ℝ) + 1 ≤ (K0:ℝ) := by exact_mod_cast Nat.succ_le_of_lt hk
      by_contra hcon
      push_neg at hcon
      have : (K0:ℝ) ≤ k := by
        have := Nat.ceil_le.2 (by linarith : d / 2 ≤ (k:ℝ))
        exact_mod_cast this
      linarith
    have := hfree k h2k
    simpa [rayPoint, hc, hs] using this
  by_cases hcase : 2 * (K0:ℝ) < m
  · have hwK : cellWallAt g (x + c * (2 * (K0:ℝ))) (y + s * (2 * (K0:ℝ))) := by
      have := hwall K0 hK0l (by linarith)
      simpa [rayPoint, hc, hs] using this
    have hexit : ¬ cellFreeAt g (x + c * (2 * (K0:ℝ))) (y + s * (2 * (K0:ℝ))) := by
      intro hf
      have h1 := hwK.2
      rw [hf.2] at h1
      exact absurd h1 (by simp)
    have h := raymarch_exits_at g x y c s m K0 hfree2 hexit hcase ⌈m / 2⌉₊ 0
      (Nat.zero_le K0)
      (by
        have : (K0:ℝ) < ⌈m / 2⌉₊ := by
          have h1 : d / 2 ≤ (K0:ℝ) := by linarith
          have h2 : (2 * (K0:ℝ)) / 2 < m / 2 := by linarith
          calc (K0:ℝ) = 2 * (K0:ℝ) / 2 := by ring
          _ < m / 2 := h2
          _ ≤ ⌈m / 2⌉₊ := Nat.le_ceil _
        exact_mod_cast this)
    unfold raycast_distance
    rw [← hc, ← hs]
    rw [show (0:ℝ) = 2 * ((0:ℕ):ℝ) by push_cast; ring, h]
    exact ⟨hK0l, by linarith⟩
  · push_neg at hcase
    have hall : ∀ k : ℕ, 2 * (k:ℝ) < m →
        cellFreeAt g (x + c * (2 * (k:ℝ))) (y + s * (2 * (k:ℝ))) := by
      intro k hk
      refine hfree2 k ?_
      by_contra hcon
      push_neg at hcon
      have : (K0:ℝ) ≤ (k:ℝ) := by exact_mod_cast hcon
      linarith
    have h := raymarch_free_samples g x y c s m hall ⌈m / 2⌉₊ 0
    unfold raycast_distance
    rw [← hc, ← hs]
    rw [show (0:ℝ) = 2 * ((0:ℕ):ℝ) by push_cast; ring, h]
    exact ⟨le_of_lt hdm, by linarith⟩

/-- A grid that is a solid wall from column 20 rightward: the wall face is
the vertical line `x = 200`. -/
def wallFrom200 : Grid := fun gx _ => decide (20 ≤ gx)

/-- Claim C6 (witness): the ray from `(100, 105)` at angle 0 toward the wall
face at `x = 200` (geometric distance 100, below the range 120) returns a
distance within one step of 100: in `[100, 102]`. -/
theorem raycast_wall_within_step_witness :
    100 ≤ raycast_distance wallFrom200 100 105 0 120 ∧
    raycast_distance wallFrom200 100 105 0 120 ≤ 102 := by
  have hfree : ∀ k : ℕ, 2 * (k:ℝ) < 100 →
      cellFreeAt wallFrom200 (rayPoint 100 105 0 (2 * (k:ℝ))).1
        (rayPoint 100 105 0 (2 * (k:ℝ))).2 := by
    intro k hk
    have hk0 : (0:ℝ) ≤ (k:ℝ) := Nat.cast_nonneg k
    simp only [rayPoint, cos_radians_zero, sin_radians_zero, one_mul, zero_mul,
      add_zero]
    refine ⟨cellInBounds_of_pos _ _ (by linarith) (by linarith) (by norm_num)
      (by norm_num), ?_⟩
    have hfl : ⌊(100 + 2 * (k:ℝ)) / 10⌋ < 20 := Int.floor_lt.2 (by push_cast; linarith)
    simp only [wallFrom200, decide_eq_false_iff_not]
    omega
  have hwall : ∀ k : ℕ, (100:ℝ) ≤ 2 * (k:ℝ) → 2 * (k:ℝ) ≤ 100 + 2 →
      cellWallAt wallFrom200 (rayPoint 100 105 0 (2 * (k:ℝ))).1
        (rayPoint 100 105 0 (2 * (k:ℝ))).2 := by
    intro k hk1 hk2
    have hcase : k = 50 ∨ k = 51 := by
      have h1n : 50 ≤ k := by exact_mod_cast (by linarith : (50:ℝ) ≤ (k:ℝ))
      have h2n : k ≤ 51 := by exact_mod_cast (by linarith : (k:ℝ) ≤ 51)
      omega
    simp only [rayPoint, cos_radians_zero, sin_radians_zero, one_mul, zero_mul,
      add_zero]
    rcases hcase with rfl | rfl
    · rw [show (100:ℝ) + 2 * ((50:ℕ):ℝ) = 200 by push_cast; ring]
      norm_num [cellWallAt, cellInBounds, COLS, ROWS, wallFrom200]
    · rw [show (100:ℝ) + 2 * ((51:ℕ):ℝ) = 202 by push_cast; ring]
      norm_num [cellWallAt, cellInBounds, COLS, ROWS, wallFrom200]
  have h := raycast_wall_within_step wallFrom200 100 105 0 100 120 (by norm_num)
    (by norm_num) hfree hwall
  exact ⟨h.1, by linarith [h.2]⟩

theorem wrapHeading_eq (v : ℝ) :
    wrapHeading v =
      (if (if v > 180 then v - 360 else v) < -180 then (if v > 180 then v - 360 else v) + 360
       else (if v > 180 then v - 360 else v)) := rfl

/-! ### The two branches of the collision step -/

theorem update_collides (g : Grid) (car : Car) (dt : ℝ)
    (h : cellWallAt g (projX g car dt) (projY g car dt)) :
    (update g car dt).x = car.x - Real.cos (radians (tickHeading g car dt)) * 4 ∧
    (update g car dt).y = car.y - Real.sin (radians (tickHeading g car dt)) * 4 ∧
    (update g car dt).heading =
      (if (sense g car).2.2 < (sense g car).2.1 then tickHeading g car dt - 25
       else tickHeading g car dt + 25) := by
  simp only [update, if_pos h]
  exact ⟨trivial, trivial, trivial⟩

theorem update_no_collision (g : Grid) (car : Car) (dt : ℝ)
    (h : ¬ cellWallAt g (projX g car dt) (projY g car dt)) :
    (update g car dt).x = projX g car dt ∧
    (update g car dt).y = projY g car dt ∧
    (update g car dt).heading = tickHeading g car dt := by
  simp only [update, if_neg h]
  exact ⟨trivial, trivial, trivial⟩

theorem update_steering_eq (g : Grid) (car : Car) (dt : ℝ) :
    (update g car dt).steering =
      applyOverride (smooth car.steering (steerCmd g car))
        (sense g car).1 (sense g car).2.1 (sense g car).2.2 := rfl

/-! ### Claim C3: collision handling of one tick -/

/-- A grid with a single wall cell at column 123, row 50 (pixels
`[1230, 1240) × [500, 510)`). -/
def gWallCell : Grid := fun gx gy => decide (gx = 123 ∧ gy = 50)

/-- The pose is inside the window `[0, 1240) × [0, 1000)`. -/
def inGridPos (car : Car) : Prop :=
  0 ≤ car.x ∧ car.x < 1240 ∧ 0 ≤ car.y ∧ car.y < 1000

/-- Claim C3 (counterexample): `update` accepts projected positions that fall
outside the grid instead of treating out-of-bounds as walls.  A car one cell
inside the wall cell (123, 50) at the right edge senses `(0, 0, 0)`; its
steering is chosen so that smoothing plus the emergency tie-bias `+20`
cancels exactly, the heading stays 0, and one tick of `1/60` seconds moves it
to `x = 1240.5`, outside the grid — no rejection, no back-off. -/
theorem update_out_of_grid_counterexample :
    (update gWallCell
      ⟨1239, 505, 0, 3/2, -(20 + 0.3 * fuzzy_steer 0 0 0) / 0.7, []⟩
      (1/60)).x = 2481/2 ∧
    ¬ inGridPos (update gWallCell
      ⟨1239, 505, 0, 3/2, -(20 + 0.3 * fuzzy_steer 0 0 0) / 0.7, []⟩ (1/60)) := by
  set car : Car := ⟨1239, 505, 0, 3/2, -(20 + 0.3 * fuzzy_steer 0 0 0) / 0.7, []⟩
    with hcar
  have hb : ¬ cellFreeAt gWallCell car.x car.y := by
    intro hf
    have h2 := hf.2
    have hx : ⌊(1239:ℝ)/10⌋ = 123 := by norm_num
    have hy : ⌊(505:ℝ)/10⌋ = 50 := by norm_num
    simp only [hcar] at h2
    rw [hx, hy] at h2
    simp [gWallCell] at h2
  have hsense : sense gWallCell car = (0, 0, 0) := sense_blocked gWallCell car hb
  have hcmd : steerCmd gWallCell car = fuzzy_steer 0 0 0 := by
    unfold steerCmd
    rw [hsense]
  have hs2 : tickSteering gWallCell car = 0 := by
    unfold tickSteering
    rw [hsense, hcmd]
    simp only [applyOverride, smooth]
    rw [if_pos (by norm_num : (0:ℝ) < 25), if_neg (lt_irrefl (0:ℝ)),
      if_neg (lt_irrefl (0:ℝ))]
    show (0.7:ℝ) * (-(20 + 0.3 * fuzzy_steer 0 0 0) / 0.7) + 0.3 * fuzzy_steer 0 0 0 + 20 = 0
    ring
  have hh3 : tickHeading gWallCell car (1/60) = 0 := by
    unfold tickHeading
    rw [hs2]
    have : car.heading = 0 := rfl
    rw [this]
    norm_num [wrapHeading]
  have hpx : projX gWallCell car (1/60) = 2481/2 := by
    unfold projX
    rw [hh3, cos_radians_zero]
    have hx : car.x = 1239 := rfl
    have hsp : car.speed = 3/2 := rfl
    rw [hx, hsp]
    norm_num
  have hpy : projY gWallCell car (1/60) = 505 := by
    unfold projY
    rw [hh3, sin_radians_zero]
    have hy : car.y = 505 := rfl
    rw [hy]
    norm_num
  have hnc : ¬ cellWallAt gWallCell (projX gWallCell car (1/60))
      (projY gWallCell car (1/60)) := by
    rw [hpx, hpy]
    intro h
    have h1 := h.1.2.1
    have : ⌊(2481:ℝ)/2/10⌋ = 124 := by norm_num
    rw [this] at h1
    simp [COLS] at h1
  have hupd := update_no_collision gWallCell car (1/60) hnc
  refine ⟨by rw [hupd.1, hpx], ?_⟩
  intro hin
  have := hin.2.1
  rw [hupd.1, hpx] at this
  norm_num at this

/-- Claim C3 (amended): one tick never moves the car onto an in-bounds wall
cell by the projected update: whenever the projected position falls on an
in-bounds occupied cell, `update` rejects the position update, backs the
vehicle off 4 pixels along the reverse heading, and applies the fixed
25-degree heading correction away from the nearer side sensor — the same
discrete correction on every tick for which the collision persists.
Projected positions outside the grid bounds, however, are accepted unchanged
(out-of-bounds is treated as a wall by the sensors, not by the collision
test), so a tick can move the pose out of the grid; NaN cannot arise in the
exact-arithmetic model. -/
theorem update_rejects_wall_projection (g : Grid) (car : Car) (dt : ℝ)
    (h : cellWallAt g (projX g car dt) (projY g car dt)) :
    (update g car dt).x = car.x - Real.cos (radians (tickHeading g car dt)) * 4 ∧
    (update g car dt).y = car.y - Real.sin (radians (tickHeading g car dt)) * 4 ∧
    (update g car dt).heading =
      (if (sense g car).2.2 < (sense g car).2.1 then tickHeading g car dt - 25
       else tickHeading g car dt + 25) :=
  update_collides g car dt h

/-- Claim C3 (witness): a car at `(1235, 505)` inside the wall cell with
`dt = 0`: the projected position is the wall cell itself, the update is
rejected, the car is moved back 4 pixels against its zero heading and the
heading is corrected by `+25` (the side sensors tie at 0). -/
theorem update_rejects_wall_projection_witness :
    (update gWallCell ⟨1235, 505, 0, 3/2, 0, []⟩ 0).x = 1231 ∧
    (update gWallCell ⟨1235, 505, 0, 3/2, 0, []⟩ 0).heading = 25 := by
  set car : Car := ⟨1235, 505, 0, 3/2, 0, []⟩ with hcar
  have hb : ¬ cellFreeAt gWallCell car.x car.y := by
    intro hf
    have h2 := hf.2
    have hx : ⌊(1235:ℝ)/10⌋ = 123 := by norm_num
    have hy : ⌊(505:ℝ)/10⌋ = 50 := by norm_num
    simp only [hcar] at h2
    rw [hx, hy] at h2
    simp [gWallCell] at h2
  have hsense : sense gWallCell car = (0, 0, 0) := sense_blocked gWallCell car hb
  have hh3 : tickHeading gWallCell car 0 = 0 := by
    unfold tickHeading
    have : car.heading = 0 := rfl
    rw [this]
    norm_num [wrapHeading]
  have hpx : projX gWallCell car 0 = 1235 := by
    unfold projX
    have hx : car.x = 1235 := rfl
    rw [hx]
    ring
  have hpy : projY gWallCell car 0 = 505 := by
    unfold projY
    have hy : car.y = 505 := rfl
    rw [hy]
    ring
  have hcol : cellWallAt gWallCell (projX gWallCell car 0) (projY gWallCell car 0) := by
    rw [hpx, hpy]
    constructor
    · rw [show ⌊(1235:ℝ)/10⌋ = 123 by norm_num, show ⌊(505:ℝ)/10⌋ = 50 by norm_num]
      norm_num [cellInBounds, COLS, ROWS]
    · rw [show ⌊(1235:ℝ)/10⌋ = 123 by norm_num, show ⌊(505:ℝ)/10⌋ = 50 by norm_num]
      simp [gWallCell]
  have h := update_rejects_wall_projection gWallCell car 0 hcol
  constructor
  · rw [h.1, hh3, cos_radians_zero]
    have hx : car.x = 1235 := rfl
    rw [hx]
    norm_num
  · rw [h.2.2, hsense, hh3]
    norm_num

/-! ### Claim C4: the emergency override -/

/-- Claim C4: in `update`, when the front distance is below the threshold 25
a fixed correction of 20 degrees is added to the already-smoothed steering,
toward whichever side sensor reports more clearance and toward the right
(positive) on ties; it is additive and applied after the smoothing step
`0.7 * steering + 0.3 * command`, never itself smoothed; above the threshold
the smoothed value passes through unchanged.  In particular, at front 10,
left 5, right 80 the result is the smoothed steering plus 20, rightward,
whatever the raw inference output `sc` was; and the steering stored by
`update` is exactly this composition applied to the sensed distances. -/
theorem emergency_override_after_smoothing (s0 sc fd ld rd : ℝ) (g : Grid)
    (car : Car) (dt : ℝ) :
    (fd < 25 → applyOverride (smooth s0 sc) fd ld rd =
      smooth s0 sc + (if ld < rd then 20 else if rd < ld then -20 else 20)) ∧
    (¬ fd < 25 → applyOverride (smooth s0 sc) fd ld rd = smooth s0 sc) ∧
    (applyOverride (smooth s0 sc) 10 5 80 = 0.7 * s0 + 0.3 * sc + 20) ∧
    ((update g car dt).steering =
      applyOverride (smooth car.steering (steerCmd g car))
        (sense g car).1 (sense g car).2.1 (sense g car).2.2) := by
  refine ⟨?_, ?_, ?_, update_steering_eq g car dt⟩
  · intro h
    simp only [applyOverride, if_pos h]
    split_ifs <;> ring
  · intro h
    simp only [applyOverride, if_neg h]
  · simp only [applyOverride, smooth]
    rw [if_pos (by norm_num : (10:ℝ) < 25), if_pos (by norm_num : (5:ℝ) < 80)]

/-- Claim C4 (witness): the theorem at front 10, left 5, right 80 (override
fires, `+20`) and at front 30 (no override). -/
theorem emergency_override_after_smoothing_witness :
    applyOverride (smooth 0 0) 10 5 80 = 0.7 * 0 + 0.3 * 0 + 20 ∧
    applyOverride (smooth 0 0) 30 5 80 = smooth 0 0 :=
  ⟨(emergency_override_after_smoothing 0 0 10 5 80 emptyGrid
      ⟨0, 0, 0, 0, 0, []⟩ 0).2.2.1,
   (emergency_override_after_smoothing 0 0 30 5 80 emptyGrid
      ⟨0, 0, 0, 0, 0, []⟩ 0).2.1 (by norm_num)⟩

/-! ### Claim C7: the heading wrap -/

/-- Claim C7 (counterexample): the single conditional pass of the wrap step
does not keep the heading in `[-180, 180]` for every state and tick: from
heading 0 (inside the range) and steering 100, one tick with `dt = 20`
seconds on the empty grid integrates `(70 + 0.3 * command) * 20 * 1.6`,
subtracts 360 once, and leaves a heading above 180. -/
theorem heading_wrap_counterexample :
    (-180 ≤ (⟨100, 100, 0, 3/2, 100, []⟩ : Car).heading ∧
      (⟨100, 100, 0, 3/2, 100, []⟩ : Car).heading ≤ 180) ∧
    180 < (update emptyGrid ⟨100, 100, 0, 3/2, 100, []⟩ 20).heading := by
  set car : Car := ⟨100, 100, 0, 3/2, 100, []⟩ with hcar
  refine ⟨by constructor <;> norm_num, ?_⟩
  have hsense : sense emptyGrid car = (120, 120, 120) :=
    sense_empty_100 car rfl rfl rfl
  have hsc := fuzzy_steer_mem_Icc (120:ℝ) 120 120
  have hs2 : tickSteering emptyGrid car = 70 + 0.3 * fuzzy_steer (120:ℝ) 120 120 := by
    unfold tickSteering steerCmd
    rw [hsense]
    simp only [applyOverride, smooth]
    rw [if_neg (by norm_num : ¬ (120:ℝ) < 25)]
    norm_num
  have hraw : car.heading + tickSteering emptyGrid car * 20 * 1.6 =
      (70 + 0.3 * fuzzy_steer (120:ℝ) 120 120) * 32 := by
    rw [hs2]
    show (0:ℝ) + (70 + 0.3 * fuzzy_steer (120:ℝ) 120 120) * 20 * 1.6 = _
    ring
  have hbig : 1760 ≤ (70 + 0.3 * fuzzy_steer (120:ℝ) 120 120) * 32 := by nlinarith
  have hsmall : (70 + 0.3 * fuzzy_steer (120:ℝ) 120 120) * 32 ≤ 2720 := by nlinarith
  have hh3 : tickHeading emptyGrid car 20 =
      (70 + 0.3 * fuzzy_steer (120:ℝ) 120 120) * 32 - 360 := by
    unfold tickHeading
    rw [hraw, wrapHeading_eq]
    rw [if_pos (by linarith : (70 + 0.3 * fuzzy_steer (120:ℝ) 120 120) * 32 > 180)]
    rw [if_neg (by linarith : ¬ (70 + 0.3 * fuzzy_steer (120:ℝ) 120 120) * 32 - 360 < -180)]
  have hnc : ¬ cellWallAt emptyGrid (projX emptyGrid car 20) (projY emptyGrid car 20) := by
    intro h
    have h2 := h.2
    simp [emptyGrid] at h2
  have hupd := update_no_collision emptyGrid car 20 hnc
  rw [hupd.2.2, hh3]
  linarith

/-- Claim C7 (amended): the wrap step returns the integrated heading to
`[-180, 180]` for every state with heading in `[-180, 180]` whose integrated
increment `steering * dt * 1.6` has magnitude at most 360 (one wrap pass
suffices for headings in `[-540, 540]`); for larger increments — large
wall-clock `dt` times accumulated steering — the single conditional pass can
leave the heading outside the range, as the counterexample shows. -/
theorem heading_wrap_bounded (h s dt : ℝ) (hh1 : -180 ≤ h) (hh2 : h ≤ 180)
    (hinc : |s * dt * 1.6| ≤ 360) :
    -180 ≤ wrapHeading (h + s * dt * 1.6) ∧ wrapHeading (h + s * dt * 1.6) ≤ 180 := by
  rw [abs_le] at hinc
  rw [wrapHeading_eq]
  split_ifs with h1 h2 <;> constructor <;> linarith [hinc.1, hinc.2]

/-- Claim C7 (witness): the amended theorem at heading 0, steering 100,
`dt = 1`: the increment 160 is within one wrap pass and the result stays in
`[-180, 180]`. -/
theorem heading_wrap_bounded_witness :
    -180 ≤ wrapHeading (0 + 100 * 1 * 1.6) ∧ wrapHeading (0 + 100 * 1 * 1.6) ≤ 180 :=
  heading_wrap_bounded 0 100 1 (by norm_num) (by norm_num)
    (by rw [abs_le]; constructor <;> norm_num)

/-! ### Claim C8: the breadcrumb trail -/

/-- Claim C8 (supporting theorem): the trail only ever grows — `update` never
removes or truncates breadcrumbs; every tick either keeps the trail or
appends one position, and from an empty trail the first tick always appends,
so repeated movement grows the trail without any bound. -/
theorem history_growth (g : Grid) (car : Car) (dt : ℝ) :
    car.history.length ≤ (update g car dt).history.length ∧
    (car.history = [] → (update g car dt).history.length = car.history.length + 1) := by
  constructor
  · simp only [update]
    split
    · simp
    · (repeat' split) <;> simp
  · intro h
    simp only [update, h]
    split_ifs <;> simp

/-- Claim C8 (witness): from an empty trail, one tick appends exactly one
breadcrumb. -/
theorem history_growth_witness :
    (update emptyGrid ⟨100, 100, 0, 3/2, 100, []⟩ 20).history.length =
      ([] : List (ℝ × ℝ)).length + 1 :=
  (history_growth emptyGrid ⟨100, 100, 0, 3/2, 100, []⟩ 20).2 rfl
